import Mathlib

/-!
Shallow embedding of the recommendation scoring core of `arxiv_explorer`
(`src/arxiv_explorer/services/recommendation.py`) together with the data
model it consumes (`src/arxiv_explorer/core/models.py`,
`src/arxiv_explorer/core/config.py`), and proofs of the specification
claims about it.

Conventions of the embedding:
* Python `datetime` values are modelled as integer epoch seconds; the
  wall clock `datetime.now()` is passed in explicitly as `now : Int`.
  `timedelta.days` is floor division of the second difference by 86400,
  which is exactly `Int.fdiv`.
* Python `float` arithmetic is modelled as exact arithmetic in a linear
  ordered field `K` (instantiated at `ℚ` for concrete evaluation and at
  `ℝ` where the cosine-similarity value, an irrational real, is needed).
* Python `dict` comprehensions (`{k: v for ...}`) are modelled as
  association lists built by successive insertion: a repeated key keeps
  its first position but receives the value of its *last* occurrence,
  exactly like a CPython `dict`.
* The external `scikit-learn` vectorizer/cosine calls are not part of
  this repository; they are modelled separately (see `fitVocabulary`,
  `transform`, `cosine_similarity` below) from their documented
  contract and the specification's description, and the structural
  claims about `score_papers` are proved for *every* value the
  similarity call could return (parameter `sim`).
-/

namespace ArxivExplorer

/-! ## Data model (from `core/models.py`) -/

/-- `Paper` dataclass: identifier, title, abstract, authors, ordered
category tags and publication timestamp (epoch seconds).  The optional
pass-through metadata fields `updated`/`pdf_url` are not consumed by the
recommendation engine and are omitted. -/
structure Paper where
  arxiv_id : String
  title : String
  abstract : String
  authors : List String
  categories : List String
  published : Int
deriving DecidableEq

/-- `PreferredCategory` dataclass (the `added_at` bookkeeping timestamp is
not consumed by the engine and is omitted). -/
structure PreferredCategory where
  id : Int
  category : String
  priority : Int
deriving DecidableEq

/-- `KeywordInterest` dataclass. -/
structure KeywordInterest where
  id : Int
  keyword : String
  weight : ℚ
  source : String
deriving DecidableEq

/-- `RecommendedPaper` dataclass: a paper together with its composite
score (the optional `summary` attachment is not produced by the engine
and is omitted).  The score field is generic in the field `K` modelling
Python floats. -/
structure RecommendedPaper (K : Type) where
  paper : Paper
  score : K
deriving DecidableEq

/-- The four recommendation weights of the `Config` dataclass in
`core/config.py` (the remaining fields are paths and fetch limits not
read by the engine). -/
structure ScoreConfig (K : Type) where
  content_weight : K
  category_weight : K
  keyword_weight : K
  recency_weight : K

/-- The default weights of `Config`: content 0.5, category 0.2,
keyword 0.1, recency 0.05 (all exactly representable binary floats,
hence exact rationals). -/
def defaultConfig : ScoreConfig ℚ :=
  { content_weight := 1/2
    category_weight := 1/5
    keyword_weight := 1/10
    recency_weight := 1/20 }

/-! ## Python primitives used by the engine -/

/-- One step of building a CPython `dict`: inserting key `k` with value
`v` overwrites the value at `k` if the key is present (keeping its
position) and otherwise appends the binding at the end. -/
def dictInsert {α : Type} (d : List (String × α)) (k : String) (v : α) :
    List (String × α) :=
  if d.any (fun p => p.1 = k) then
    d.map (fun p => if p.1 = k then (k, v) else p)
  else d ++ [(k, v)]

/-- A CPython `dict` built from a list of key/value pairs (the semantics
of `{f(x): g(x) for x in l}`): iteration order is first-occurrence order
of the keys, and a duplicated key holds the value of its last
occurrence. -/
def dictOfPairs {α : Type} (l : List (String × α)) : List (String × α) :=
  l.foldl (fun d kv => dictInsert d kv.1 kv.2) []

/-- Does `hay` start with `needle`?  (Helper for substring search.) -/
def matchesAt : List Char → List Char → Bool
  | _, [] => true
  | [], _ :: _ => false
  | a :: hay, b :: nd => a = b && matchesAt hay nd

/-- Does `needle` occur (contiguously) somewhere in the character list? -/
def occursIn (needle : List Char) : List Char → Bool
  | [] => needle.isEmpty
  | c :: rest => matchesAt (c :: rest) needle || occursIn needle rest

/-- Python's `needle in haystack` substring test on strings. -/
def strContains (haystack needle : String) : Bool :=
  occursIn needle.toList haystack.toList

/-- Python's `str.lower()` (ASCII-faithful, like the engine's inputs):
lower-case every character. -/
def pyLower (s : String) : String :=
  String.mk (s.toList.map Char.toLower)

/-- Python's `max(iterable, default=d)`. -/
def maxWithDefault (l : List Int) (d : Int) : Int :=
  match l with
  | [] => d
  | x :: xs => xs.foldl max x

/-! ## The scoring engine (`RecommendationEngine.score_papers`) -/

variable {K : Type} [LinearOrderedField K]

/-- The document text of a paper: `f"{p.title} {p.abstract}"`. -/
def docText (p : Paper) : String := p.title ++ " " ++ p.abstract

/-- `category_priorities = {c.category: c.priority for c in preferred_categories}` -/
def category_priorities (prefs : List PreferredCategory) : List (String × Int) :=
  dictOfPairs (prefs.map fun c => (c.category, c.priority))

/-- `max_priority = max((c.priority for c in preferred_categories), default=1)` -/
def max_priority (prefs : List PreferredCategory) : Int :=
  maxWithDefault (prefs.map fun c => c.priority) 1

/-- `keyword_weights = {k.keyword: k.weight for k in keywords}` -/
def keyword_weights (kws : List KeywordInterest) : List (String × ℚ) :=
  dictOfPairs (kws.map fun k => (k.keyword, k.weight))

/-- The category-matching loop: walk the paper's categories in order and
return the stored priority of the first one present in the dict
(`break` after the first match). -/
def firstMatchPriority (dict : List (String × Int)) : List String → Option Int
  | [] => none
  | c :: rest =>
    match List.lookup c dict with
    | some priority => some priority
    | none => firstMatchPriority dict rest

/-- Contribution of block 2 of the loop body (category matching):
`score += config.category_weight * normalized` for the first matching
tag, where `normalized = priority / max_priority if max_priority > 0 else 1`. -/
def category_score (cfg : ScoreConfig K) (prefs : List PreferredCategory)
    (p : Paper) : K :=
  match firstMatchPriority (category_priorities prefs) p.categories with
  | none => 0
  | some priority =>
      cfg.category_weight *
        (if 0 < max_priority prefs then (priority : K) / (max_priority prefs : K) else 1)

/-- Contribution of block 3 of the loop body (keyword matching): iterate
over the items of the keyword dict and add
`config.keyword_weight * weight` for every keyword contained in the
lower-cased document text. -/
def keyword_score (cfg : ScoreConfig K) (kws : List KeywordInterest)
    (p : Paper) : K :=
  (keyword_weights kws).foldl
    (fun acc kv =>
      if strContains (pyLower (docText p)) kv.1 then acc + cfg.keyword_weight * (kv.2 : K)
      else acc) 0

/-- `days_old = (datetime.now() - paper.published).days`: the (floored)
whole-day difference; negative for papers published in the future. -/
def days_old (now : Int) (p : Paper) : Int :=
  Int.fdiv (now - p.published) 86400

/-- Contribution of block 4 of the loop body (recency bonus):
`recency_factor = 1 - days_old / 30` added when `days_old < 30`. -/
def recency_score (cfg : ScoreConfig K) (now : Int) (p : Paper) : K :=
  if days_old now p < 30 then cfg.recency_weight * (1 - (days_old now p : K) / 30)
  else 0

/-- Contribution of block 1 of the loop body (content similarity):
`sim = none` models the guard `user_profile is not None and self._is_fitted`
evaluating false (term skipped); otherwise `f p` is the value returned
by the external `cosine_similarity` call for paper `p`. -/
def content_score (cfg : ScoreConfig K) (sim : Option (Paper → K)) (p : Paper) : K :=
  match sim with
  | none => 0
  | some f => cfg.content_weight * f p

/-- The complete loop body of `score_papers` for one paper: the four
contributions added to the initial `score = 0.0` in program order. -/
def scoreOf (cfg : ScoreConfig K) (sim : Option (Paper → K))
    (prefs : List PreferredCategory) (kws : List KeywordInterest)
    (now : Int) (p : Paper) : K :=
  content_score cfg sim p + category_score cfg prefs p +
    keyword_score cfg kws p + recency_score cfg now p

/-- The `results` list before sorting: one `RecommendedPaper` appended
per input paper, in input order. -/
def scored_list (cfg : ScoreConfig K) (papers : List Paper)
    (sim : Option (Paper → K)) (prefs : List PreferredCategory)
    (kws : List KeywordInterest) (now : Int) : List (RecommendedPaper K) :=
  papers.map fun p => ⟨p, scoreOf cfg sim prefs kws now p⟩

/-- `score_papers`: build `results` and sort it with
`results.sort(key=lambda x: x.score, reverse=True)` — a *stable*
descending sort, modelled by the stable `List.mergeSort` with the
comparator "left score at least right score". -/
def score_papers (cfg : ScoreConfig K) (papers : List Paper)
    (sim : Option (Paper → K)) (prefs : List PreferredCategory)
    (kws : List KeywordInterest) (now : Int) : List (RecommendedPaper K) :=
  (scored_list cfg papers sim prefs kws now).mergeSort
    (fun a b => decide (b.score ≤ a.score))

/-! ## The text-profile model (`TfidfVectorizer` and `cosine_similarity`)

The vectorizer and the cosine call live in `scikit-learn`, outside this
repository.  They are modelled from the specification's description of
`TextProfileModel` (§4.1: vocabulary of terms and term bigrams with
stop words excluded, a TF-IDF weight per vocabulary term, mean profile
vector, out-of-vocabulary terms ignored) and from the library's
documented contract (fitting a corpus in which no document yields any
valid token raises `ValueError: empty vocabulary`; transforming after a
successful fit never raises; a zero row is left unnormalised so its
cosine similarity is 0). -/

/-- A character counts towards a token iff it is a word character
(the library's token pattern `\w`). -/
def isWordChar (c : Char) : Bool := c.isAlphanum || c = '_'

/-- Split a character list into its maximal runs of word characters. -/
def wordRuns : List Char → List Char → List (List Char)
  | [], acc => if acc.isEmpty then [] else [acc.reverse]
  | c :: cs, acc =>
    if isWordChar c then wordRuns cs (c :: acc)
    else if acc.isEmpty then wordRuns cs [] else acc.reverse :: wordRuns cs []

/-- Modelled from the spec: the stop-word list "excluded" from the
vocabulary (§4.1).  The library ships a fixed English list of 318 words;
this is a representative excerpt of it — every claim proved below is
insensitive to the exact extent of the list. -/
def stopWords : List String :=
  ["a", "an", "and", "are", "as", "at", "be", "by", "for", "from",
   "has", "he", "in", "is", "it", "its", "of", "on", "or", "that",
   "the", "this", "to", "was", "we", "were", "will", "with"]

/-- Tokenization of one document: lower-case, keep maximal word-character
runs of length at least two (token pattern `\w\w+`), drop stop words. -/
def tokenize (s : String) : List String :=
  ((wordRuns (pyLower s).toList []).map (fun r => String.mk r)).filter
    (fun w => 2 ≤ w.length && !(stopWords.contains w))

/-- The grams of a document for `ngram_range=(1, 2)`: the tokens
followed by the space-joined consecutive bigrams. -/
def grams (s : String) : List String :=
  let ts := tokenize s
  ts ++ List.zipWith (fun a b => a ++ " " ++ b) ts ts.tail

/-- Keep the first occurrence of every element (used for the fitted
vocabulary; `min_df=1` keeps every gram that occurs at all). -/
def dedupFirst (l : List String) : List String :=
  l.foldl (fun acc x => if x ∈ acc then acc else acc ++ [x]) []

/-- Number of occurrences of gram `g` in a document's gram list (raw
term frequency). -/
def termCount (gs : List String) (g : String) : ℕ :=
  (gs.filter (fun x => x = g)).length

/-- Modelled from the spec: the fitted per-term inverse-document-frequency
weight.  The library uses the smoothed `ln((1+n)/(1+df)) + 1`; it is
modelled here by the positive rational `(1+n)/(1+df)`, which is likewise
strictly positive and decreasing in the document frequency `df`; no
claim below depends on the exact functional form.  (`n` is the corpus
size.) -/
def idfWeight (docs : List String) (g : String) : ℚ :=
  (1 + docs.length : ℚ) / (1 + (docs.filter (fun d => termCount (grams d) g ≠ 0)).length)

/-- Fitting the vectorizer on a corpus: the vocabulary is every gram of
the corpus (first-occurrence order), each paired with its fitted idf
weight. -/
def fitVocabulary (docs : List String) : List (String × ℚ) :=
  (dedupFirst (docs.flatMap grams)).map (fun g => (g, idfWeight docs g))

/-- Transforming one document in a fitted space: one coordinate per
vocabulary term, holding raw term frequency times the fitted idf weight.
Grams of the document outside the vocabulary contribute to no
coordinate. -/
def transform (fitted : List (String × ℚ)) (doc : String) : List ℚ :=
  fitted.map (fun gi => (termCount (grams doc) gi.1 : ℚ) * gi.2)

/-- Pointwise sum of two vectors. -/
def addVec (a b : List ℚ) : List ℚ := List.zipWith (· + ·) a b

/-- `vectors.mean(axis=0)`: the arithmetic mean vector of a (nonempty)
list of equal-length vectors. -/
def meanVec (vs : List (List ℚ)) : List ℚ :=
  match vs with
  | [] => []
  | v :: rest => (rest.foldl addVec v).map (fun x => x / (vs.length : ℚ))

/-- The engine's mutable vectorizer state: `none` models
`_is_fitted == False`; `some fitted` holds the frozen vocabulary/idf
statistics of the first successful fit. -/
structure RecommendationEngine where
  fitted : Option (List (String × ℚ))
deriving DecidableEq

/-- `RecommendationEngine()` — fresh engine, not yet fitted. -/
def RecommendationEngine.init : RecommendationEngine := ⟨none⟩

/-- `RecommendationEngine.build_user_profile`: returns `none` on an
empty liked list; otherwise fits the vectorizer on the first such call
(raising, like the library, when the corpus yields an empty vocabulary)
and transforms with the frozen statistics on every later call; the
profile is the mean of the per-document vectors.  The result pairs the
returned value with the engine state after the call. -/
def build_user_profile (eng : RecommendationEngine) (liked : List Paper) :
    Except String (Option (List ℚ) × RecommendationEngine) :=
  if liked.isEmpty then .ok (none, eng)
  else
    match eng.fitted with
    | none =>
        if (fitVocabulary (liked.map docText)).isEmpty then .error "empty vocabulary"
        else .ok (some (meanVec ((liked.map docText).map
              (transform (fitVocabulary (liked.map docText))))),
            ⟨some (fitVocabulary (liked.map docText))⟩)
    | some fitted =>
        .ok (some (meanVec ((liked.map docText).map (transform fitted))), eng)

/-- Dot product of two rational vectors. -/
def dotQ (a b : List ℚ) : ℚ := (List.zipWith (· * ·) a b).sum

/-- The library's `cosine_similarity` on two rows: each row is l2
normalised unless its norm is zero (a zero row is left as is, so its
similarity is 0), then the dot product is taken. -/
noncomputable def cosine_similarity (a b : List ℚ) : ℝ :=
  if dotQ a a = 0 ∨ dotQ b b = 0 then 0
  else (dotQ a b : ℝ) / (Real.sqrt (dotQ a a) * Real.sqrt (dotQ b b))

/-- The similarity function block 1 of `score_papers` evaluates when a
profile is supplied and the engine is fitted (`none` otherwise): paper
`p`'s document is transformed in the frozen space and compared with the
profile. -/
noncomputable def engineSim (eng : RecommendationEngine)
    (user_profile : Option (List ℚ)) : Option (Paper → ℝ) :=
  match user_profile, eng.fitted with
  | some profile, some fitted =>
      some (fun p => cosine_similarity profile (transform fitted (docText p)))
  | _, _ => none

/-- `score_papers` as run on a concrete engine: the generic scorer with
the similarity term produced by the fitted vectorizer. -/
noncomputable def score_papers_engine (cfg : ScoreConfig ℝ)
    (eng : RecommendationEngine) (papers : List Paper)
    (user_profile : Option (List ℚ)) (prefs : List PreferredCategory)
    (kws : List KeywordInterest) (now : Int) : List (RecommendedPaper ℝ) :=
  score_papers cfg papers (engineSim eng user_profile) prefs kws now

/-! ## Helper lemmas about the scorer -/

/-- The pre-sort list maps back to the input papers. -/
theorem scored_list_map_paper (cfg : ScoreConfig K) (papers : List Paper)
    (sim : Option (Paper → K)) (prefs : List PreferredCategory)
    (kws : List KeywordInterest) (now : Int) :
    (scored_list cfg papers sim prefs kws now).map (fun r => r.paper) = papers := by
  simp [scored_list, List.map_map, Function.comp_def]

/-- The sort comparator is transitive. -/
theorem scoreLE_trans (a b c : RecommendedPaper K) :
    (fun a b : RecommendedPaper K => decide (b.score ≤ a.score)) a b →
    (fun a b : RecommendedPaper K => decide (b.score ≤ a.score)) b c →
    (fun a b : RecommendedPaper K => decide (b.score ≤ a.score)) a c := by
  simp only [decide_eq_true_eq]
  exact fun h₁ h₂ => le_trans h₂ h₁

/-- The sort comparator is total. -/
theorem scoreLE_total (a b : RecommendedPaper K) :
    ((fun a b : RecommendedPaper K => decide (b.score ≤ a.score)) a b ||
     (fun a b : RecommendedPaper K => decide (b.score ≤ a.score)) b a) := by
  simp only [Bool.or_eq_true, decide_eq_true_eq]
  exact le_total b.score a.score

/-- Everything `score_papers` returns is a scored input paper. -/
theorem mem_score_papers {cfg : ScoreConfig K} {papers : List Paper}
    {sim : Option (Paper → K)} {prefs : List PreferredCategory}
    {kws : List KeywordInterest} {now : Int} {r : RecommendedPaper K}
    (h : r ∈ score_papers cfg papers sim prefs kws now) :
    r.paper ∈ papers ∧ r.score = scoreOf cfg sim prefs kws now r.paper := by
  rw [score_papers, List.mem_mergeSort] at h
  obtain ⟨p, hp, rfl⟩ := List.mem_map.mp h
  exact ⟨hp, rfl⟩

/-! ## C1 and C2: permutation, sortedness and stability -/

/-- C1: for every candidate list, profile, preferred-category list and
keyword list (and every similarity value the external call could
return), `score_papers` returns a permutation of its input: the output
papers are a permutation of the candidates, and hence so is the multiset
of their identifiers — no paper dropped, none invented. -/
theorem score_papers_permutation (cfg : ScoreConfig K) (papers : List Paper)
    (sim : Option (Paper → K)) (prefs : List PreferredCategory)
    (kws : List KeywordInterest) (now : Int) :
    ((score_papers cfg papers sim prefs kws now).map (fun r => r.paper)).Perm papers ∧
    ((score_papers cfg papers sim prefs kws now).map (fun r => r.paper.arxiv_id)).Perm
      (papers.map (fun p => p.arxiv_id)) := by
  have hperm := (List.mergeSort_perm (scored_list cfg papers sim prefs kws now)
    (fun a b => decide (b.score ≤ a.score))).map (fun r => r.paper)
  rw [scored_list_map_paper] at hperm
  refine ⟨hperm, ?_⟩
  have := hperm.map (fun p => p.arxiv_id)
  simpa [List.map_map, Function.comp_def] using this

/-- C2: the output of `score_papers` is sorted by score in
non-increasing order, and for every score value the output papers
carrying that score are exactly the input papers carrying it, in input
order (stable tie-break). -/
theorem score_papers_sorted_stable (cfg : ScoreConfig K) (papers : List Paper)
    (sim : Option (Paper → K)) (prefs : List PreferredCategory)
    (kws : List KeywordInterest) (now : Int) :
    (score_papers cfg papers sim prefs kws now).Pairwise
      (fun a b => b.score ≤ a.score) ∧
    ∀ s : K, (score_papers cfg papers sim prefs kws now).filter
        (fun r => decide (r.score = s)) =
      (scored_list cfg papers sim prefs kws now).filter
        (fun r => decide (r.score = s)) := by
  constructor
  · have h := List.sorted_mergeSort scoreLE_trans scoreLE_total
      (scored_list cfg papers sim prefs kws now)
    rw [score_papers]
    exact h.imp (by simp only [decide_eq_true_eq]; exact fun h => h)
  · intro s
    set l := scored_list cfg papers sim prefs kws now with hl
    set c := l.filter (fun r => decide (r.score = s)) with hc
    have hmemc : ∀ r ∈ c, r.score = s := by
      intro r hr
      have := (List.mem_filter.mp hr).2
      simpa using this
    have hcpair : c.Pairwise (fun a b : RecommendedPaper K => decide (b.score ≤ a.score)) := by
      apply List.pairwise_of_forall_mem_list
      intro a ha b hb
      simp only [decide_eq_true_eq, hmemc a ha, hmemc b hb, le_refl]
    have hcsub : List.Sublist c l := List.filter_sublist l
    have hstable : List.Sublist c (l.mergeSort (fun a b => decide (b.score ≤ a.score))) :=
      List.sublist_mergeSort scoreLE_trans scoreLE_total hcpair hcsub
    have hsub2 : List.Sublist c ((l.mergeSort (fun a b => decide (b.score ≤ a.score))).filter
        (fun r => decide (r.score = s))) := by
      have := hstable.filter (fun r => decide (r.score = s))
      rwa [List.filter_eq_self.mpr (fun r hr => by simpa using hmemc r hr)] at this
    have hperm : ((l.mergeSort (fun a b => decide (b.score ≤ a.score))).filter
        (fun r => decide (r.score = s))).Perm c :=
      (List.mergeSort_perm l _).filter _
    rw [score_papers, ← hl]
    exact (hsub2.eq_of_length hperm.length_eq.symm).symm

/-! ## C3: the recency signal -/

/-- Shorthand for concrete papers in counterexamples and witnesses. -/
def mkPaper (id title abst : String) (cats : List String) (pub : Int) : Paper :=
  { arxiv_id := id, title := title, abstract := abst, authors := [],
    categories := cats, published := pub }

/-- C3 counterexample: a paper published 10 days in the future (at the
default weights, scored at `now = 0`) receives a recency contribution of
`recency_weight * (4/3) = 1/15`, whereas the claimed formula
`max(0, now - published)` would give `recency_weight * 1 = 1/20`; in
particular the contribution exceeds `recency_weight * 1`, refuting
"S_recency always lies in [0, 1]" and "a future timestamp contributes at
most 1".  The code clamps nothing: `days_old` is the floored day
difference, negative here. -/
theorem recency_score_future_counterexample :
    recency_score defaultConfig 0 (mkPaper "future" "t" "a" [] 864000) = 1/15 ∧
    defaultConfig.recency_weight *
        (1 - ((max 0 (days_old 0 (mkPaper "future" "t" "a" [] 864000)) : Int) : ℚ) / 30) = 1/20 ∧
    ¬ recency_score defaultConfig 0 (mkPaper "future" "t" "a" [] 864000) ≤
        defaultConfig.recency_weight * 1 := by
  have hd : days_old 0 (mkPaper "future" "t" "a" [] 864000) = -10 := by decide
  have hmax : (max 0 (days_old 0 (mkPaper "future" "t" "a" [] 864000)) : Int) = 0 := by
    rw [hd]; decide
  refine ⟨?_, ?_, ?_⟩
  · simp only [recency_score, hd]
    norm_num [defaultConfig]
  · rw [hmax]
    norm_num [defaultConfig]
  · simp only [recency_score, hd]
    norm_num [defaultConfig]

/-- C3 (amended): `days_old` is the floored whole-day difference
*without* clamping at 0, and the contribution is
`recency_weight * (1 - days_old/30)` when `days_old < 30` and 0
otherwise.  Consequently: for a paper published at or before `now` the
contribution lies in `[0, recency_weight]`; a paper published at `now`
contributes the full weight; 15 days ago, half the weight; 30 or more
days ago, 0; and a paper with a *future* timestamp contributes strictly
more than `recency_weight * 1` (the claimed clamp is absent). -/
theorem recency_score_spec (cfg : ScoreConfig K) (now : Int) (p : Paper)
    (hw : 0 < cfg.recency_weight) :
    recency_score cfg now p =
      (if days_old now p < 30 then cfg.recency_weight * (1 - (days_old now p : K) / 30)
       else 0) ∧
    (p.published ≤ now →
      0 ≤ recency_score cfg now p ∧ recency_score cfg now p ≤ cfg.recency_weight * 1) ∧
    (p.published = now → recency_score cfg now p = cfg.recency_weight * 1) ∧
    (now - p.published = 15 * 86400 →
      recency_score cfg now p = cfg.recency_weight * (1/2)) ∧
    (30 * 86400 ≤ now - p.published → recency_score cfg now p = 0) ∧
    (now < p.published → cfg.recency_weight * 1 < recency_score cfg now p) := by
  refine ⟨rfl, ?_, ?_, ?_, ?_, ?_⟩
  · intro h
    have hd : 0 ≤ days_old now p :=
      Int.fdiv_nonneg (by omega) (by norm_num)
    by_cases h30 : days_old now p < 30
    · have hcast0 : (0 : K) ≤ (days_old now p : K) := by exact_mod_cast hd
      have hcast30 : (days_old now p : K) ≤ 30 := by exact_mod_cast h30.le
      have hfac0 : 0 ≤ 1 - (days_old now p : K) / 30 := by
        have : (days_old now p : K) / 30 ≤ 1 := by
          rw [div_le_one (by norm_num)]; exact hcast30
        linarith
      have hfac1 : 1 - (days_old now p : K) / 30 ≤ 1 := by
        have : 0 ≤ (days_old now p : K) / 30 := by positivity
        linarith
      simp only [recency_score, if_pos h30]
      exact ⟨mul_nonneg hw.le hfac0, mul_le_mul_of_nonneg_left hfac1 hw.le⟩
    · simp only [recency_score, if_neg h30]
      exact ⟨le_refl 0, by positivity⟩
  · intro h
    have hd : days_old now p = 0 := by
      simp [days_old, h]
    simp only [recency_score, hd]
    norm_num
  · intro h
    have hd : days_old now p = 15 := by
      simp only [days_old, h]; decide
    simp only [recency_score, hd]
    norm_num
  · intro h
    have hd : 30 ≤ days_old now p := by
      simp only [days_old]
      rw [Int.fdiv_eq_ediv _ (by norm_num)]
      rw [Int.le_ediv_iff_mul_le (by norm_num)]
      omega
    simp only [recency_score, if_neg (by omega : ¬ days_old now p < 30)]
  · intro h
    have hd : days_old now p < 0 :=
      Int.fdiv_neg' (by omega) (by norm_num)
    have hcast : (days_old now p : K) ≤ -1 := by
      exact_mod_cast (by omega : days_old now p ≤ -1)
    have hfac : 1 < 1 - (days_old now p : K) / 30 := by
      have h30 : (days_old now p : K) / 30 ≤ (-1 : K) / 30 :=
        (div_le_div_iff_of_pos_right (by norm_num : (0:K) < 30)).mpr hcast
      have : (-1 : K) / 30 < 0 := by norm_num
      linarith
    simp only [recency_score, if_pos (by omega : days_old now p < 30)]
    exact mul_lt_mul_of_pos_left hfac hw

/-- C3 witness: the amended recency statement evaluated at the default
weights for a paper published exactly 15 whole days before `now`. -/
theorem recency_score_spec_witness :
    0 < defaultConfig.recency_weight ∧
    recency_score defaultConfig 1296000 (mkPaper "p" "t" "a" [] 0) =
      defaultConfig.recency_weight * (1/2) := by
  refine ⟨by norm_num [defaultConfig], ?_⟩
  exact (recency_score_spec defaultConfig 1296000 (mkPaper "p" "t" "a" [] 0)
    (by norm_num [defaultConfig])).2.2.2.1 (by decide)

/-! ## Association-list lemmas for the Python dicts -/

/-- Inserting a fresh key appends; the `any` test is key membership. -/
theorem dictInsert_of_not_mem {α : Type} {d : List (String × α)} {k : String}
    (h : k ∉ d.map Prod.fst) (v : α) : dictInsert d k v = d ++ [(k, v)] := by
  rw [dictInsert, if_neg]
  simp only [List.any_eq_true, decide_eq_true_eq, not_exists]
  intro p hp
  exact h (List.mem_map.mpr ⟨p, hp.1, hp.2⟩)

/-- Building a dict from pairs with pairwise-distinct keys changes
nothing. -/
theorem foldl_dictInsert_of_nodup {α : Type} :
    ∀ (l d : List (String × α)), (((d ++ l).map Prod.fst).Nodup) →
      l.foldl (fun d kv => dictInsert d kv.1 kv.2) d = d ++ l
  | [], d, _ => by simp
  | kv :: rest, d, h => by
    have hmap : ((d ++ kv :: rest).map Prod.fst) =
        d.map Prod.fst ++ kv.1 :: rest.map Prod.fst := by simp
    rw [hmap] at h
    have hk : kv.1 ∉ d.map Prod.fst := by
      intro hmem
      exact (List.disjoint_of_nodup_append h) hmem (List.mem_cons_self _ _)
    have step : dictInsert d kv.1 kv.2 = d ++ [(kv.1, kv.2)] := dictInsert_of_not_mem hk _
    rw [List.foldl_cons, step]
    have h' : (((d ++ [(kv.1, kv.2)]) ++ rest).map Prod.fst).Nodup := by
      simp only [List.append_assoc, List.singleton_append, List.map_append, List.map_cons]
      simpa using h
    rw [foldl_dictInsert_of_nodup rest (d ++ [(kv.1, kv.2)]) h']
    simp

/-- A dict built from pairs with pairwise-distinct keys is those pairs. -/
theorem dictOfPairs_of_nodup {α : Type} (l : List (String × α))
    (h : (l.map Prod.fst).Nodup) : dictOfPairs l = l := by
  have := foldl_dictInsert_of_nodup l [] (by simpa using h)
  simpa [dictOfPairs] using this

/-- Looking a key up in a list of pairs built by mapping is a `find?`
over the underlying list. -/
theorem lookup_map_pairs {α β : Type} (f : α → String) (g : α → β)
    (l : List α) (t : String) :
    List.lookup t (l.map fun a => (f a, g a)) =
      (l.find? (fun a => f a = t)).map g := by
  induction l with
  | nil => rfl
  | cons a rest ih =>
    by_cases h : f a = t
    · simp [List.lookup, List.find?, h, beq_iff_eq]
    · have h1 : (t == f a) = false := by
        simp only [beq_eq_false_iff_ne, ne_eq]
        exact fun ht => h ht.symm
      have h2 : (decide (f a = t)) = false := by simpa using h
      simp [List.lookup, List.find?, h1, h2, ih]

/-- Under pairwise-distinct keys, `find?` returns the unique element
with the sought key. -/
theorem find?_eq_of_nodup_keys {α : Type} (f : α → String) [DecidableEq α] :
    ∀ (l : List α) (c : α) (t : String), ((l.map f).Nodup) → c ∈ l → f c = t →
      l.find? (fun a => f a = t) = some c
  | [], c, t, _, hc, _ => absurd hc (List.not_mem_nil c)
  | a :: rest, c, t, hnd, hc, hct => by
    by_cases h : f a = t
    · have hca : c = a := by
        rcases List.mem_cons.mp hc with rfl | hcr
        · rfl
        · exfalso
          have : f c ∈ rest.map f := List.mem_map.mpr ⟨c, hcr, rfl⟩
          rw [hct, ← h] at this
          exact (List.nodup_cons.mp (by simpa using hnd)).1 this
      subst hca
      simp [List.find?, h]
    · have hcr : c ∈ rest := by
        rcases List.mem_cons.mp hc with rfl | hcr
        · exact absurd hct h
        · exact hcr
      have h2 : (decide (f a = t)) = false := by simpa using h
      simp only [List.find?, h2]
      exact find?_eq_of_nodup_keys f rest c t (List.nodup_cons.mp (by simpa using hnd)).2
        hcr hct

/-- The category loop as a `find?`-then-lookup. -/
theorem firstMatchPriority_eq_find (d : List (String × Int)) :
    ∀ (cats : List String), firstMatchPriority d cats =
      (cats.find? (fun t => (List.lookup t d).isSome)).bind (fun t => List.lookup t d)
  | [] => rfl
  | c :: rest => by
    cases h : List.lookup c d with
    | none => simp [firstMatchPriority, List.find?, h, firstMatchPriority_eq_find d rest]
    | some v => simp [firstMatchPriority, List.find?, h]

/-- The fold `foldl max x xs` dominates its starting value. -/
theorem le_foldl_max : ∀ (xs : List Int) (x : Int), x ≤ xs.foldl max x
  | [], _ => le_refl _
  | y :: ys, x => le_trans (le_max_left x y) (le_foldl_max ys (max x y))

/-- With at least one preferred category of priority ≥ 1, the maximum
priority is positive. -/
theorem max_priority_pos {prefs : List PreferredCategory}
    (hpos : ∀ c ∈ prefs, 1 ≤ c.priority) (hne : prefs ≠ []) :
    0 < max_priority prefs := by
  rcases prefs with _ | ⟨c, rest⟩
  · exact absurd rfl hne
  · have h1 : 1 ≤ c.priority := hpos c (List.mem_cons_self _ _)
    have h2 : c.priority ≤ (rest.map (fun c => c.priority)).foldl max c.priority :=
      le_foldl_max _ _
    simp only [max_priority, maxWithDefault, List.map_cons]
    omega

/-! ## C4: the category signal -/

/-- C4: with pairwise-distinct preferred categories of priority ≥ 1 (the
data-model invariants of the preference store), the category signal of a
paper is determined by the *first* tag, in the paper's own category
order, that appears among the preferred categories: no match (in
particular an empty preferred list) contributes 0, and a first matching
tag belonging to preference `c` contributes exactly
`category_weight * (c.priority / max_priority)`, further matching tags
adding nothing. -/
theorem category_score_spec (cfg : ScoreConfig K) (prefs : List PreferredCategory)
    (p : Paper) (hpos : ∀ c ∈ prefs, 1 ≤ c.priority)
    (hnodup : (prefs.map PreferredCategory.category).Nodup) :
    (p.categories.find? (fun t => decide (t ∈ prefs.map PreferredCategory.category)) = none →
      category_score cfg prefs p = 0) ∧
    (∀ (t : String) (c : PreferredCategory),
      p.categories.find? (fun t => decide (t ∈ prefs.map PreferredCategory.category)) = some t →
      c ∈ prefs → c.category = t →
      category_score cfg prefs p =
        cfg.category_weight * ((c.priority : K) / (max_priority prefs : K))) := by
  have hdict : category_priorities prefs = prefs.map fun c => (c.category, c.priority) := by
    apply dictOfPairs_of_nodup
    simpa [List.map_map, Function.comp_def] using hnodup
  have hpred : ∀ t : String,
      (decide (t ∈ prefs.map PreferredCategory.category)) =
        (List.lookup t (category_priorities prefs)).isSome := by
    intro t
    rw [hdict, lookup_map_pairs PreferredCategory.category (fun c => c.priority) prefs t]
    rw [Bool.eq_iff_iff]
    simp only [decide_eq_true_eq, Option.isSome_map', List.find?_isSome, decide_eq_true_eq,
      List.mem_map]
  have hfind : ∀ (o : Option String),
      p.categories.find? (fun t => decide (t ∈ prefs.map PreferredCategory.category)) = o ↔
      p.categories.find? (fun t => (List.lookup t (category_priorities prefs)).isSome) = o := by
    intro o
    constructor <;> intro h
    · rw [← h]; congr 1; funext t; exact (hpred t).symm
    · rw [← h]; congr 1; funext t; exact hpred t
  constructor
  · intro h
    rw [hfind none] at h
    rw [category_score, firstMatchPriority_eq_find, h]
    rfl
  · intro t c hft hc hct
    rw [hfind (some t)] at hft
    have hlook : List.lookup t (category_priorities prefs) = some c.priority := by
      rw [hdict, lookup_map_pairs PreferredCategory.category (fun c => c.priority) prefs t]
      rw [find?_eq_of_nodup_keys PreferredCategory.category prefs c t hnodup hc hct]
      rfl
    rw [category_score, firstMatchPriority_eq_find, hft]
    simp only [Option.bind, hlook]
    have hmax : 0 < max_priority prefs :=
      max_priority_pos hpos (by rintro rfl; exact absurd hc (List.not_mem_nil c))
    rw [if_pos hmax]

/-- C4 witness: preferred categories `hep-ph` (priority 2) and `cs.AI`
(priority 1); a paper tagged `["math.AG", "cs.AI"]` gets
`category_weight * (1/2) = 1/10`. -/
theorem category_score_spec_witness :
    category_score defaultConfig
      [⟨1, "hep-ph", 2⟩, ⟨2, "cs.AI", 1⟩]
      (mkPaper "w" "t" "a" ["math.AG", "cs.AI"] 0) = 1/10 := by
  have h := (category_score_spec defaultConfig [⟨1, "hep-ph", 2⟩, ⟨2, "cs.AI", 1⟩]
      (mkPaper "w" "t" "a" ["math.AG", "cs.AI"] 0) (by decide) (by decide)).2
      "cs.AI" ⟨2, "cs.AI", 1⟩ (by decide) (by decide) (by decide)
  rw [h]
  have hm : max_priority [⟨1, "hep-ph", 2⟩, ⟨2, "cs.AI", 1⟩] = 2 := by decide
  rw [hm]
  norm_num [defaultConfig]

/-! ## C5: the keyword signal -/

/-- Unrolling the keyword fold: it adds `keyword_weight * weight` for
every matching entry. -/
theorem keyword_fold (cfg : ScoreConfig K) (text : String) :
    ∀ (l : List (String × ℚ)) (acc : K),
      l.foldl (fun acc kv =>
          if strContains text kv.1 then acc + cfg.keyword_weight * (kv.2 : K) else acc) acc =
        acc + cfg.keyword_weight *
          ((l.filter (fun kv => strContains text kv.1)).map (fun kv => (kv.2 : K))).sum
  | [], acc => by simp
  | kv :: rest, acc => by
    by_cases h : strContains text kv.1
    · simp only [List.foldl_cons, if_pos h, List.filter_cons, List.map_cons,
        List.sum_cons, keyword_fold cfg text rest]
      ring
    · simp only [List.foldl_cons, if_neg h, List.filter_cons, if_neg h,
        keyword_fold cfg text rest]

/-- C5: with pairwise-distinct keywords (the data-model invariant of the
keyword store), the keyword signal is `keyword_weight` times the *sum*
of the weights of every keyword interest whose keyword occurs as a
substring of the lower-cased title-plus-abstract text — additive over
all matches, with no single-match cap. -/
theorem keyword_score_spec (cfg : ScoreConfig K) (kws : List KeywordInterest)
    (p : Paper) (hnodup : (kws.map KeywordInterest.keyword).Nodup) :
    keyword_score cfg kws p =
      cfg.keyword_weight *
        ((kws.filter (fun k => strContains (pyLower (docText p)) k.keyword)).map
          (fun k => (k.weight : K))).sum := by
  rw [keyword_score]
  have hdict : keyword_weights kws = kws.map fun k => (k.keyword, k.weight) :=
    dictOfPairs_of_nodup _ (by simpa [List.map_map, Function.comp_def] using hnodup)
  rw [hdict, keyword_fold, zero_add]
  congr 1
  rw [List.filter_map]
  simp [List.map_map, Function.comp_def]

/-- C5 witness: keywords `deep learning` (weight 1.0) and `quantum`
(weight 1.5) both occur in the paper's text, so the keyword signal is
`keyword_weight * 2.5 = 1/4` at the default weights. -/
theorem keyword_score_spec_witness :
    keyword_score defaultConfig
      [⟨1, "deep learning", 1, "explicit"⟩, ⟨2, "quantum", 3/2, "explicit"⟩]
      (mkPaper "w" "Deep learning for quantum systems" "Abstract text." [] 0) =
      defaultConfig.keyword_weight * (5/2) := by
  rw [keyword_score_spec defaultConfig _ _ (by decide)]
  have h1 : strContains (pyLower (docText
      (mkPaper "w" "Deep learning for quantum systems" "Abstract text." [] 0)))
      "deep learning" = true := by decide
  have h2 : strContains (pyLower (docText
      (mkPaper "w" "Deep learning for quantum systems" "Abstract text." [] 0)))
      "quantum" = true := by decide
  simp only [List.filter_cons, List.filter_nil, h1, h2, if_true, List.map_cons,
    List.map_nil, List.sum_cons, List.sum_nil, Rat.cast_id]
  norm_num

/-! ## C10: duplicate keywords collapse to the last binding -/

/-- The weight of the *last* entry of the keyword list carrying a given
keyword (0 if none does) — the claim-side description of what a
duplicated keyword contributes. -/
def lastWeightOf (kws : List KeywordInterest) (k : String) : ℚ :=
  ((kws.reverse.find? (fun x => x.keyword = k)).map (fun x => x.weight)).getD 0

/-- Membership in the first-occurrence dedup fold. -/
theorem mem_foldl_dedup :
    ∀ (l acc : List String) (y : String),
      (y ∈ l.foldl (fun acc x => if x ∈ acc then acc else acc ++ [x]) acc) ↔
        y ∈ acc ∨ y ∈ l
  | [], acc, y => by simp
  | x :: xs, acc, y => by
    rw [List.foldl_cons]
    by_cases hx : x ∈ acc
    · rw [if_pos hx, mem_foldl_dedup xs acc y]
      constructor
      · rintro (h | h)
        · exact Or.inl h
        · exact Or.inr (List.mem_cons_of_mem x h)
      · rintro (h | h)
        · exact Or.inl h
        · rcases List.mem_cons.mp h with rfl | h
          · exact Or.inl hx
          · exact Or.inr h
    · rw [if_neg hx, mem_foldl_dedup xs (acc ++ [x]) y]
      simp only [List.mem_append, List.mem_singleton, List.mem_cons]
      tauto

/-- An element occurs in `dedupFirst l` iff it occurs in `l`. -/
theorem mem_dedupFirst (l : List String) (y : String) :
    y ∈ dedupFirst l ↔ y ∈ l := by
  have := mem_foldl_dedup l [] y
  simpa [dedupFirst] using this

/-- The dedup fold preserves freedom from duplicates. -/
theorem nodup_foldl_dedup :
    ∀ (l acc : List String), acc.Nodup →
      (l.foldl (fun acc x => if x ∈ acc then acc else acc ++ [x]) acc).Nodup
  | [], _, h => h
  | x :: xs, acc, h => by
    rw [List.foldl_cons]
    by_cases hx : x ∈ acc
    · rw [if_pos hx]; exact nodup_foldl_dedup xs acc h
    · rw [if_neg hx]
      refine nodup_foldl_dedup xs (acc ++ [x]) ?_
      simp [List.nodup_append, h, hx]

/-- `dedupFirst` yields pairwise-distinct elements. -/
theorem dedupFirst_nodup (l : List String) : (dedupFirst l).Nodup :=
  nodup_foldl_dedup l [] List.nodup_nil

/-- Building a dict from one more pair inserts it at the end. -/
theorem dictOfPairs_snoc {α : Type} (l : List (String × α)) (kv : String × α) :
    dictOfPairs (l ++ [kv]) = dictInsert (dictOfPairs l) kv.1 kv.2 := by
  simp [dictOfPairs, List.foldl_append]

/-- `dedupFirst` of one more element. -/
theorem dedupFirst_snoc (l : List String) (x : String) :
    dedupFirst (l ++ [x]) =
      if x ∈ dedupFirst l then dedupFirst l else dedupFirst l ++ [x] := by
  simp [dedupFirst, List.foldl_append]

/-- The keys after an insertion: unchanged if present, appended if new. -/
theorem dictInsert_keys {α : Type} (d : List (String × α)) (k : String) (v : α) :
    (dictInsert d k v).map Prod.fst =
      if k ∈ d.map Prod.fst then d.map Prod.fst else d.map Prod.fst ++ [k] := by
  by_cases h : k ∈ d.map Prod.fst
  · rw [if_pos h, dictInsert, if_pos]
    · rw [List.map_map]
      apply List.map_congr_left
      intro p _
      by_cases hp : p.1 = k <;> simp [hp]
    · simp only [List.any_eq_true, decide_eq_true_eq]
      obtain ⟨p, hp, hpk⟩ := List.mem_map.mp h
      exact ⟨p, hp, hpk⟩
  · rw [if_neg h, dictInsert_of_not_mem h]
    simp

/-- The keys of a Python dict are the first occurrences of the pair
keys, in order. -/
theorem dictOfPairs_keys {α : Type} (l : List (String × α)) :
    (dictOfPairs l).map Prod.fst = dedupFirst (l.map Prod.fst) := by
  induction l using List.reverseRecOn with
  | nil => rfl
  | append_singleton l kv ih =>
    rw [dictOfPairs_snoc, dictInsert_keys, List.map_append, List.map_singleton,
      dedupFirst_snoc, ih]

/-- A key absent from an association list looks up to nothing. -/
theorem lookup_eq_none_of_not_mem {α : Type} :
    ∀ {d : List (String × α)} {k : String}, k ∉ d.map Prod.fst →
      List.lookup k d = none
  | [], _, _ => rfl
  | p :: rest, k, h => by
    have hk : k ≠ p.1 := fun he => h (by simp [he])
    have : (k == p.1) = false := beq_eq_false_iff_ne.mpr hk
    cases p
    simp only [List.map_cons] at h
    simp only [List.lookup, this]
    exact lookup_eq_none_of_not_mem (fun hm => h (List.mem_cons_of_mem _ hm))

/-- Overwriting a present key makes it look up to the new value. -/
theorem lookup_map_update_self {α : Type} :
    ∀ {d : List (String × α)} {k : String} (v : α), k ∈ d.map Prod.fst →
      List.lookup k (d.map (fun p => if p.1 = k then (k, v) else p)) = some v
  | [], k, v, h => absurd h (List.not_mem_nil k)
  | ⟨k₁, v₁⟩ :: rest, k, v, h => by
    rw [List.map_cons]
    by_cases hp : k₁ = k
    · have h1 : (if (⟨k₁, v₁⟩ : String × α).1 = k then (k, v) else ⟨k₁, v₁⟩) = (k, v) :=
        if_pos hp
      rw [h1]
      simp [List.lookup]
    · have h1 : (if (⟨k₁, v₁⟩ : String × α).1 = k then (k, v) else ⟨k₁, v₁⟩) = ⟨k₁, v₁⟩ :=
        if_neg hp
      rw [h1]
      have hb : (k == k₁) = false := beq_eq_false_iff_ne.mpr (fun he => hp he.symm)
      have hmem : k ∈ rest.map Prod.fst := by
        rcases List.mem_map.mp h with ⟨q, hq, hqk⟩
        rcases List.mem_cons.mp hq with rfl | hq2
        · exact absurd hqk hp
        · exact List.mem_map.mpr ⟨q, hq2, hqk⟩
      simp only [List.lookup, hb]
      exact lookup_map_update_self v hmem

/-- Overwriting one key leaves every other lookup unchanged. -/
theorem lookup_map_update_ne {α : Type} {k k' : String} (hne : k ≠ k') (v : α) :
    ∀ (d : List (String × α)),
      List.lookup k (d.map (fun p => if p.1 = k' then (k', v) else p)) =
        List.lookup k d
  | [] => rfl
  | ⟨k₁, v₁⟩ :: rest => by
    rw [List.map_cons]
    by_cases hp : k₁ = k'
    · have h1 : (if (⟨k₁, v₁⟩ : String × α).1 = k' then (k', v) else ⟨k₁, v₁⟩) = (k', v) :=
        if_pos hp
      rw [h1]
      have hbk : (k == k') = false := beq_eq_false_iff_ne.mpr hne
      have hbk1 : (k == k₁) = false := beq_eq_false_iff_ne.mpr (fun he => hne (he.trans hp))
      simp only [List.lookup, hbk, hbk1]
      exact lookup_map_update_ne hne v rest
    · have h1 : (if (⟨k₁, v₁⟩ : String × α).1 = k' then (k', v) else ⟨k₁, v₁⟩) = ⟨k₁, v₁⟩ :=
        if_neg hp
      rw [h1]
      cases hb : (k == k₁)
      · simp only [List.lookup, hb]
        exact lookup_map_update_ne hne v rest
      · simp only [List.lookup, hb]

/-- An appended fresh binding is found only when the key misses the
front list. -/
theorem lookup_append_single {α : Type} {k k' : String} (v : α) :
    ∀ (d : List (String × α)),
      List.lookup k (d ++ [(k', v)]) =
        match List.lookup k d with
        | some w => some w
        | none => if k = k' then some v else none
  | [] => by
    by_cases h : k = k'
    · simp [List.lookup, h]
    · simp [List.lookup, beq_eq_false_iff_ne.mpr h, h]
  | p :: rest => by
    cases hb : (k == p.1)
    · simp only [List.cons_append, List.lookup, hb]
      exact lookup_append_single v rest
    · simp only [List.cons_append, List.lookup, hb]

/-- Looking up after a dict insertion: the inserted key now holds the
new value, all other keys are untouched. -/
theorem lookup_dictInsert {α : Type} (d : List (String × α)) (k' : String) (v : α)
    (k : String) :
    List.lookup k (dictInsert d k' v) =
      if k = k' then some v else List.lookup k d := by
  rw [dictInsert]
  by_cases hmem : k' ∈ d.map Prod.fst
  · rw [if_pos]
    · by_cases hk : k = k'
      · subst hk
        rw [if_pos rfl, lookup_map_update_self v hmem]
      · rw [if_neg hk, lookup_map_update_ne hk v d]
    · simp only [List.any_eq_true, decide_eq_true_eq]
      obtain ⟨p, hp, hpk⟩ := List.mem_map.mp hmem
      exact ⟨p, hp, hpk⟩
  · rw [if_neg]
    · rw [lookup_append_single]
      by_cases hk : k = k'
      · subst hk
        rw [lookup_eq_none_of_not_mem hmem]
      · cases hl : List.lookup k d <;> simp [hk]
    · simp only [List.any_eq_true, decide_eq_true_eq, not_exists]
      intro p hp
      exact hmem (List.mem_map.mpr ⟨p, hp.1, hp.2⟩)

/-- A Python dict looks up to the binding of the *last* occurrence of a
key in the pair list. -/
theorem lookup_dictOfPairs {α : Type} (l : List (String × α)) (k : String) :
    List.lookup k (dictOfPairs l) = List.lookup k l.reverse := by
  induction l using List.reverseRecOn with
  | nil => rfl
  | append_singleton l kv ih =>
    rw [dictOfPairs_snoc, lookup_dictInsert, List.reverse_append]
    by_cases hk : k = kv.1
    · cases kv
      simp [List.lookup, hk, ih]
    · cases kv
      simp only [List.reverse_singleton, List.singleton_append, List.lookup,
        beq_eq_false_iff_ne.mpr hk, if_neg hk]
      exact ih

/-- An association list with pairwise-distinct keys is recovered from
its keys and its lookups. -/
theorem assoc_rebuild :
    ∀ (d : List (String × ℚ)), (d.map Prod.fst).Nodup →
      d = (d.map Prod.fst).map (fun k => (k, (List.lookup k d).getD 0))
  | [], _ => rfl
  | p :: rest, h => by
    have hhead : List.lookup p.1 (p :: rest) = some p.2 := by
      cases p; simp [List.lookup]
    have hp1 : p.1 ∉ rest.map Prod.fst := (List.nodup_cons.mp h).1
    have htail : ∀ k ∈ rest.map Prod.fst,
        List.lookup k (p :: rest) = List.lookup k rest := by
      intro k hk
      have : (k == p.1) = false :=
        beq_eq_false_iff_ne.mpr (fun he => hp1 (he ▸ hk))
      cases p
      simp [List.lookup, this]
    conv_lhs => rw [assoc_rebuild rest (List.nodup_cons.mp h).2]
    simp only [List.map_cons, hhead, Option.getD_some]
    congr 1
    symm
    apply List.map_congr_left
    intro k hk
    rw [htail k hk]

/-- C10: a duplicated keyword contributes only its *last* weight.  In
general the keyword signal is `keyword_weight` times the sum, over the
distinct keywords that match the lower-cased text, of the weight of that
keyword's last list entry; in particular a two-entry list with the same
keyword scores exactly the second entry's weight — the first is
silently discarded, never summed. -/
theorem keyword_score_last_duplicate_wins (cfg : ScoreConfig K)
    (kws : List KeywordInterest) (p : Paper) :
    keyword_score cfg kws p =
      cfg.keyword_weight *
        (((dedupFirst (kws.map KeywordInterest.keyword)).filter
            (fun k => strContains (pyLower (docText p)) k)).map
          (fun k => (lastWeightOf kws k : K))).sum ∧
    ∀ (i j : Int) (s₁ s₂ k : String) (w₁ w₂ : ℚ),
      keyword_score cfg [⟨i, k, w₁, s₁⟩, ⟨j, k, w₂, s₂⟩] p =
        if strContains (pyLower (docText p)) k then cfg.keyword_weight * (w₂ : K)
        else 0 := by
  constructor
  · rw [keyword_score, keyword_fold, zero_add]
    congr 1
    have hkeys : (keyword_weights kws).map Prod.fst =
        dedupFirst (kws.map KeywordInterest.keyword) := by
      rw [keyword_weights, dictOfPairs_keys, List.map_map]
      rfl
    have hnodup : ((keyword_weights kws).map Prod.fst).Nodup := by
      rw [hkeys]; exact dedupFirst_nodup _
    have hval : ∀ k, (List.lookup k (keyword_weights kws)).getD 0 = lastWeightOf kws k := by
      intro k
      rw [keyword_weights, lookup_dictOfPairs, ← List.map_reverse,
        lookup_map_pairs KeywordInterest.keyword KeywordInterest.weight]
      rfl
    conv_lhs => rw [assoc_rebuild (keyword_weights kws) hnodup]
    rw [List.filter_map, List.map_map, hkeys]
    congr 1
    apply List.map_congr_left
    intro k _
    simp only [Function.comp_def, hval k]
  · intro i j s₁ s₂ k w₁ w₂
    have hdict : keyword_weights [⟨i, k, w₁, s₁⟩, ⟨j, k, w₂, s₂⟩] = [(k, w₂)] := by
      simp [keyword_weights, dictOfPairs, dictInsert]
    rw [keyword_score, hdict]
    by_cases h : strContains (pyLower (docText p)) k
    · simp [h]
    · simp [h]

/-! ## C6 and C7: profile building, its error path, fit-once reuse -/

/-- C6 counterexample: building a profile for a fresh (unfitted) engine
from one liked paper whose title and abstract are both empty makes the
vectorizer fit a corpus with no usable term, which raises the library's
`ValueError: empty vocabulary` instead of returning normally. -/
theorem build_user_profile_empty_text_counterexample :
    build_user_profile RecommendationEngine.init [mkPaper "e" "" "" [] 0] =
      .error "empty vocabulary" := by
  rfl

/-- C6 (amended): profile building raises *exactly* when the engine is
not yet fitted, the liked list is nonempty, and the liked corpus yields
an empty vocabulary (empty or stop-word-only text); in every other case
— empty input, fitted engine, or a corpus with at least one usable term
— it returns normally (and scoring itself never raises: its degenerate
cosine cases yield 0, see the content-similarity lemmas below). -/
theorem build_user_profile_error_characterization (eng : RecommendationEngine)
    (liked : List Paper) :
    (∃ e, build_user_profile eng liked = .error e) ↔
      eng.fitted = none ∧ liked ≠ [] ∧ fitVocabulary (liked.map docText) = [] := by
  rw [build_user_profile]
  by_cases hl : liked.isEmpty
  · have : liked = [] := by simpa using hl
    simp [hl, this]
  · have hne : liked ≠ [] := by simpa using hl
    cases hf : eng.fitted with
    | none =>
      by_cases hv : (fitVocabulary (liked.map docText)).isEmpty
      · have hv' : fitVocabulary (liked.map docText) = [] := by simpa using hv
        simp [hl, hv, hv', hne]
      · have hv' : fitVocabulary (liked.map docText) ≠ [] := by simpa using hv
        simp [hl, hv, hv', hne]
    | some f =>
      simp [hl, hne]

/-- C7 counterexample: on the *nonempty* liked list consisting of one
paper whose text holds only stop words and one-letter tokens, a fresh
engine does not return the mean TF-IDF vector (or anything at all): the
fit raises the empty-vocabulary error. -/
theorem build_user_profile_not_mean_counterexample :
    build_user_profile RecommendationEngine.init [mkPaper "s" "the of a" "x" [] 0] =
      .error "empty vocabulary" := by
  rfl

/-- C7 (amended): profile building returns `none` exactly on an empty
liked list; on a nonempty list it returns the arithmetic mean of the
per-document TF-IDF vectors *provided* the engine is already fitted or
the fit succeeds (nonempty vocabulary) — otherwise it raises.  The
vocabulary/idf statistics are fitted only on the first successful
nonempty call: a fitted engine transforms with its frozen statistics and
its state is unchanged, and a transformed vector has one coordinate per
*fitted* vocabulary term, so out-of-vocabulary terms of later documents
are ignored at zero weight rather than causing an error. -/
theorem build_user_profile_spec :
    (∀ eng : RecommendationEngine, build_user_profile eng [] = .ok (none, eng)) ∧
    (∀ (eng : RecommendationEngine) (liked : List Paper)
        (res : Option (List ℚ) × RecommendationEngine),
      build_user_profile eng liked = .ok res → (res.1 = none ↔ liked = [])) ∧
    (∀ (f : List (String × ℚ)) (liked : List Paper), liked ≠ [] →
      build_user_profile ⟨some f⟩ liked =
        .ok (some (meanVec ((liked.map docText).map (transform f))), ⟨some f⟩)) ∧
    (∀ liked : List Paper, liked ≠ [] →
      fitVocabulary (liked.map docText) ≠ [] →
      build_user_profile ⟨none⟩ liked =
        .ok (some (meanVec ((liked.map docText).map
              (transform (fitVocabulary (liked.map docText))))),
            ⟨some (fitVocabulary (liked.map docText))⟩)) ∧
    (∀ (f : List (String × ℚ)) (doc : String), (transform f doc).length = f.length) := by
  refine ⟨?_, ?_, ?_, ?_, ?_⟩
  · intro eng
    rfl
  · intro eng liked res h
    rw [build_user_profile] at h
    by_cases hl : liked.isEmpty
    · have hl' : liked = [] := by simpa using hl
      rw [if_pos hl] at h
      cases h
      simp [hl']
    · have hl' : liked ≠ [] := by simpa using hl
      rw [if_neg hl] at h
      obtain ⟨fitted⟩ := eng
      cases fitted with
      | none =>
        dsimp only at h
        by_cases hv : (fitVocabulary (liked.map docText)).isEmpty
        · rw [if_pos hv] at h
          cases h
        · rw [if_neg hv] at h
          cases h
          simp [hl']
      | some f =>
        dsimp only at h
        cases h
        simp [hl']
  · intro f liked hne
    rw [build_user_profile, if_neg (by simpa using hne)]
  · intro liked hne hv
    rw [build_user_profile, if_neg (by simpa using hne)]
    simp only []
    rw [if_neg (by simpa using hv)]
  · intro f doc
    simp [transform]

/-- C7 witness: an engine frozen on the vocabulary `[("neural", 1)]`
transforms a new liked paper (out-of-vocabulary text included) without
refitting and returns the mean vector with its state unchanged. -/
theorem build_user_profile_spec_witness :
    build_user_profile ⟨some [("neural", 1)]⟩ [mkPaper "q" "quantum gravity" "" [] 0] =
      .ok (some (meanVec (([mkPaper "q" "quantum gravity" "" [] 0].map docText).map
            (transform [("neural", 1)]))), ⟨some [("neural", 1)]⟩) :=
  build_user_profile_spec.2.2.1 [("neural", 1)] _ (by decide)

/-! ## Vector lemmas: positivity and Cauchy-Schwarz -/

/-- A self-dot-product is a sum of squares, hence nonnegative. -/
theorem dotQ_self_nonneg : ∀ a : List ℚ, 0 ≤ dotQ a a
  | [] => le_refl 0
  | x :: xs => by
    have h1 : 0 ≤ x * x := mul_self_nonneg x
    have h2 : 0 ≤ dotQ xs xs := dotQ_self_nonneg xs
    simp only [dotQ, List.zipWith_cons_cons, List.sum_cons]
    exact add_nonneg h1 h2

/-- A vector with a nonzero entry has positive self-dot-product. -/
theorem dotQ_self_pos : ∀ (a : List ℚ) (x : ℚ), x ∈ a → x ≠ 0 → 0 < dotQ a a
  | [], x, hx, _ => absurd hx (List.not_mem_nil x)
  | y :: ys, x, hx, hx0 => by
    simp only [dotQ, List.zipWith_cons_cons, List.sum_cons]
    rcases List.mem_cons.mp hx with rfl | hmem
    · have h1 : 0 < x * x := mul_self_pos.mpr hx0
      have h2 : 0 ≤ dotQ ys ys := dotQ_self_nonneg ys
      calc (0:ℚ) < x * x := h1
      _ ≤ x * x + dotQ ys ys := le_add_of_nonneg_right h2
    · have h1 : 0 ≤ y * y := mul_self_nonneg y
      have h2 : 0 < dotQ ys ys := dotQ_self_pos ys x hmem hx0
      calc (0:ℚ) < dotQ ys ys := h2
      _ ≤ y * y + dotQ ys ys := le_add_of_nonneg_left h1

/-- Unfolding the dot product on a pair of cons cells. -/
theorem dotQ_cons (x y : ℚ) (xs ys : List ℚ) :
    dotQ (x :: xs) (y :: ys) = x * y + dotQ xs ys := by
  simp [dotQ]

/-- Cauchy-Schwarz for the list dot product. -/
theorem dotQ_sq_le : ∀ a b : List ℚ, (dotQ a b)^2 ≤ dotQ a a * dotQ b b
  | [], b => by
    simp [dotQ, mul_nonneg (dotQ_self_nonneg []) (dotQ_self_nonneg b)]
  | x :: xs, [] => by
    have h1 : 0 ≤ dotQ (x :: xs) (x :: xs) := dotQ_self_nonneg _
    simp [dotQ]
  | x :: xs, y :: ys => by
    have ih : (dotQ xs ys)^2 ≤ dotQ xs xs * dotQ ys ys := dotQ_sq_le xs ys
    have hA : 0 ≤ dotQ xs xs := dotQ_self_nonneg xs
    have hB : 0 ≤ dotQ ys ys := dotQ_self_nonneg ys
    rw [dotQ_cons, dotQ_cons, dotQ_cons]
    rcases eq_or_lt_of_le hB with hB0 | hBpos
    · have hd0 : dotQ xs ys = 0 := by nlinarith [sq_nonneg (dotQ xs ys), ih]
      rw [hd0, ← hB0]
      nlinarith [mul_nonneg hA (sq_nonneg y), sq_nonneg (x*y)]
    · nlinarith [sq_nonneg (x * dotQ ys ys - y * dotQ xs ys),
        mul_nonneg (sq_nonneg y) (sub_nonneg.mpr ih),
        mul_nonneg hBpos.le (sub_nonneg.mpr ih), ih, hA, hB, hBpos]

/-- The modelled library cosine never exceeds 1 in absolute value. -/
theorem abs_cosine_le_one (a b : List ℚ) : |cosine_similarity a b| ≤ 1 := by
  rw [cosine_similarity]
  by_cases h : dotQ a a = 0 ∨ dotQ b b = 0
  · rw [if_pos h]; simp
  · rw [if_neg h]
    push_neg at h
    have hA : 0 < dotQ a a := (dotQ_self_nonneg a).lt_of_ne (Ne.symm h.1)
    have hB : 0 < dotQ b b := (dotQ_self_nonneg b).lt_of_ne (Ne.symm h.2)
    have hA' : (0:ℝ) < (dotQ a a : ℝ) := by exact_mod_cast hA
    have hB' : (0:ℝ) < (dotQ b b : ℝ) := by exact_mod_cast hB
    have hden : 0 < Real.sqrt (dotQ a a) * Real.sqrt (dotQ b b) :=
      mul_pos (Real.sqrt_pos.mpr hA') (Real.sqrt_pos.mpr hB')
    rw [abs_div, abs_of_pos hden, div_le_one hden]
    have hcs : ((dotQ a b : ℝ))^2 ≤ (dotQ a a : ℝ) * (dotQ b b : ℝ) := by
      exact_mod_cast dotQ_sq_le a b
    calc |(dotQ a b : ℝ)| = Real.sqrt (((dotQ a b : ℝ))^2) := (Real.sqrt_sq_eq_abs _).symm
    _ ≤ Real.sqrt ((dotQ a a : ℝ) * (dotQ b b : ℝ)) := Real.sqrt_le_sqrt hcs
    _ = Real.sqrt (dotQ a a) * Real.sqrt (dotQ b b) := Real.sqrt_mul (le_of_lt hA') _

/-- A zero-norm left argument (e.g. a profile built from empty text)
yields similarity 0, not an error. -/
theorem cosine_zero_left {a : List ℚ} (h : dotQ a a = 0) (b : List ℚ) :
    cosine_similarity a b = 0 := by
  rw [cosine_similarity, if_pos (Or.inl h)]

/-- Self-similarity of a vector with nonzero norm is exactly 1. -/
theorem cosine_self {a : List ℚ} (h : dotQ a a ≠ 0) :
    cosine_similarity a a = 1 := by
  rw [cosine_similarity, if_neg (by simpa using h)]
  have hA : 0 < dotQ a a := (dotQ_self_nonneg a).lt_of_ne (Ne.symm h)
  have hA' : (0:ℝ) < (dotQ a a : ℝ) := by exact_mod_cast hA
  rw [Real.mul_self_sqrt (le_of_lt hA')]
  exact div_self (ne_of_gt hA')

/-! ## C8: profile/similarity round trip -/

/-- The mean of a single vector is that vector. -/
theorem meanVec_singleton (v : List ℚ) : meanVec [v] = v := by
  simp [meanVec]

/-- C8: for any paper with non-degenerate text (at least one usable
term or bigram), building a profile from that single paper and then
computing the engine's content similarity of that same paper against
the profile yields exactly 1 — the maximum the modelled cosine attains. -/
theorem profile_roundtrip (p : Paper) (h : grams (docText p) ≠ []) :
    ∃ (v : List ℚ) (f : List (String × ℚ)),
      build_user_profile RecommendationEngine.init [p] = .ok (some v, ⟨some f⟩) ∧
      cosine_similarity v (transform f (docText p)) = 1 := by
  have hflat : ([p].map docText).flatMap grams = grams (docText p) := by
    simp
  have hded : dedupFirst (grams (docText p)) ≠ [] := by
    obtain ⟨g, hg⟩ := List.exists_mem_of_ne_nil _ h
    exact List.ne_nil_of_mem ((mem_dedupFirst _ g).mpr hg)
  have hvocab : fitVocabulary ([p].map docText) ≠ [] := by
    rw [fitVocabulary, hflat]
    simpa using hded
  refine ⟨transform (fitVocabulary ([p].map docText)) (docText p),
    fitVocabulary ([p].map docText), ?_, ?_⟩
  · rw [build_user_profile, if_neg (by simp)]
    dsimp only [RecommendationEngine.init]
    rw [if_neg (by simpa using hvocab)]
    rw [List.map_singleton, List.map_singleton, meanVec_singleton]
  · set f := fitVocabulary ([p].map docText) with hf
    set t := transform f (docText p) with ht
    apply cosine_self
    obtain ⟨g, hg⟩ := List.exists_mem_of_ne_nil _ hded
    have hgmem : g ∈ grams (docText p) := (mem_dedupFirst _ g).mp hg
    have hcount : 1 ≤ termCount (grams (docText p)) g := by
      rw [termCount]
      have hmemf : g ∈ (grams (docText p)).filter (fun x => decide (x = g)) :=
        List.mem_filter.mpr ⟨hgmem, by simp⟩
      have := List.length_pos.mpr (List.ne_nil_of_mem hmemf)
      omega
    have hidf : 0 < idfWeight ([p].map docText) g := by
      rw [idfWeight]
      apply div_pos
      · positivity
      · positivity
    have hentry : (termCount (grams (docText p)) g : ℚ) * idfWeight ([p].map docText) g ∈ t := by
      rw [ht, transform]
      have hfg : (g, idfWeight ([p].map docText) g) ∈ f := by
        rw [hf, fitVocabulary, hflat]
        exact List.mem_map.mpr ⟨g, hg, rfl⟩
      exact List.mem_map.mpr ⟨(g, idfWeight ([p].map docText) g), hfg, rfl⟩
    have hpos : 0 < (termCount (grams (docText p)) g : ℚ) * idfWeight ([p].map docText) g := by
      apply mul_pos _ hidf
      exact_mod_cast hcount
    exact ne_of_gt (dotQ_self_pos t _ hentry (ne_of_gt hpos))

/-- C8 witness: the round trip on a concrete paper with usable text. -/
theorem profile_roundtrip_witness :
    ∃ (v : List ℚ) (f : List (String × ℚ)),
      build_user_profile RecommendationEngine.init
          [mkPaper "w" "neural networks" "" [] 0] = .ok (some v, ⟨some f⟩) ∧
      cosine_similarity v
        (transform f (docText (mkPaper "w" "neural networks" "" [] 0))) = 1 :=
  profile_roundtrip (mkPaper "w" "neural networks" "" [] 0) (by decide)

/-! ## C9: every output score is a well-defined, bounded-content value -/

/-- The default weights read over the reals, as used by the engine-level
scorer. -/
noncomputable def realConfig : ScoreConfig ℝ :=
  { content_weight := 1/2
    category_weight := 1/5
    keyword_weight := 1/10
    recency_weight := 1/20 }

/-- C9: every score the engine-level `score_papers` outputs is the
finite value `base + content` where `base` is the (content-free) score
of the same paper and the content term is bounded by `|content_weight|`
in absolute value — the guarded cosine is total and lies in `[-1, 1]`,
so no division by zero or unbounded value arises; moreover for a
degenerate profile (zero-norm vector, e.g. built from empty text) the
content term is exactly 0 and the score *equals* the base score. -/
theorem scores_finite (cfg : ScoreConfig ℝ) (eng : RecommendationEngine)
    (papers : List Paper) (profile : Option (List ℚ))
    (prefs : List PreferredCategory) (kws : List KeywordInterest) (now : Int) :
    ∀ r ∈ score_papers_engine cfg eng papers profile prefs kws now,
      |r.score - scoreOf cfg none prefs kws now r.paper| ≤ |cfg.content_weight| ∧
      (∀ prof, profile = some prof → dotQ prof prof = 0 →
        r.score = scoreOf cfg none prefs kws now r.paper) := by
  intro r hr
  rw [score_papers_engine] at hr
  obtain ⟨hp, hs⟩ := mem_score_papers hr
  rcases profile with _ | prof
  · constructor
    · rw [hs]
      simp only [engineSim, scoreOf, content_score]
      simp
    · intro prof hprof
      cases hprof
  · obtain ⟨fitted⟩ := eng
    cases fitted with
    | none =>
      constructor
      · rw [hs]
        simp only [engineSim, scoreOf, content_score]
        simp
      · intro prof' hprof hdeg
        rw [hs]
        simp only [engineSim, scoreOf, content_score]
    | some f =>
      have hsim : engineSim ⟨some f⟩ (some prof) =
          some (fun p => cosine_similarity prof (transform f (docText p))) := rfl
      constructor
      · rw [hs, hsim]
        simp only [scoreOf, content_score]
        have habs : |cosine_similarity prof (transform f (docText r.paper))| ≤ 1 :=
          abs_cosine_le_one _ _
        have : cfg.content_weight * cosine_similarity prof (transform f (docText r.paper)) +
            category_score cfg prefs r.paper + keyword_score cfg kws r.paper +
            recency_score cfg now r.paper -
            (0 + category_score cfg prefs r.paper + keyword_score cfg kws r.paper +
              recency_score cfg now r.paper) =
            cfg.content_weight * cosine_similarity prof (transform f (docText r.paper)) := by
          ring
        rw [this, abs_mul]
        exact mul_le_of_le_one_right (abs_nonneg _) habs
      · intro prof' hprof hdeg
        cases hprof
        rw [hs, hsim]
        simp only [scoreOf, content_score]
        rw [cosine_zero_left hdeg]
        ring

/-- C9 witness: membership and the bound at a concrete one-paper call. -/
theorem scores_finite_witness :
    (⟨mkPaper "a" "t" "x" [] 0,
        scoreOf realConfig (engineSim RecommendationEngine.init none) [] [] 0
          (mkPaper "a" "t" "x" [] 0)⟩ : RecommendedPaper ℝ) ∈
      score_papers_engine realConfig RecommendationEngine.init
        [mkPaper "a" "t" "x" [] 0] none [] [] 0 ∧
    |scoreOf realConfig (engineSim RecommendationEngine.init none) [] [] 0
        (mkPaper "a" "t" "x" [] 0) -
      scoreOf realConfig none [] [] 0 (mkPaper "a" "t" "x" [] 0)| ≤
      |realConfig.content_weight| := by
  have hmem : (⟨mkPaper "a" "t" "x" [] 0,
      scoreOf realConfig (engineSim RecommendationEngine.init none) [] [] 0
        (mkPaper "a" "t" "x" [] 0)⟩ : RecommendedPaper ℝ) ∈
      score_papers_engine realConfig RecommendationEngine.init
        [mkPaper "a" "t" "x" [] 0] none [] [] 0 := by
    rw [score_papers_engine, score_papers]
    simp [scored_list]
  exact ⟨hmem,
    ((scores_finite realConfig RecommendationEngine.init [mkPaper "a" "t" "x" [] 0]
      none [] [] 0) _ hmem).1⟩

end ArxivExplorer
